import Mathlib

/-!
# Verification of the drum-staff sketch editor's core logic

Shallow embedding of the score model, geometry mapping and interaction
controller of the drum-sheet editor (the measure/duration variant in the
repository, whose handlers are `handleClick`, `handleClear`,
`handlePointerMove`, `handleCopyMeasure`, `handlePasteMeasure`, …).

Pixel coordinates are modelled as rationals (`ℚ`); grid columns, durations
and subdivision counts as integers (`ℤ`); measure indices as naturals.
-/

namespace DrumSheet

/-- The four fixed voices (`NOTE_ROWS` ids `hh`, `sn`, `ht`, `bd`). -/
inductive RowId where
  | hh
  | sn
  | ht
  | bd
deriving DecidableEq, Repr

/-- Note-head shape (`'x'` or `'circle'` in `NOTE_ROWS`). -/
inductive Shape where
  | x
  | circle
deriving DecidableEq, Repr

/-- Stem direction (`'up'` or `'down'` in `NOTE_ROWS`). -/
inductive Stem where
  | up
  | down
deriving DecidableEq, Repr

/-- One entry of the `NOTE_ROWS` constant. -/
structure NoteRow where
  id : RowId
  name : String
  row : ℚ
  shape : Shape
  stem : Stem
deriving DecidableEq, Repr

/-- The `NOTE_ROWS` constant: hi-hat, snare, high tom, kick. -/
def NOTE_ROWS : List NoteRow :=
  [⟨.hh, "Hi-hat", 0, .x, .up⟩,
   ⟨.sn, "Snare", 4, .circle, .up⟩,
   ⟨.ht, "High tom", 5, .circle, .up⟩,
   ⟨.bd, "Kick", 8, .circle, .down⟩]

/-- `rowOrder`: index of each voice in `NOTE_ROWS` (built by the
`NOTE_ROWS.forEach` loop that fills the `rowOrder` map). -/
def rowOrder : RowId → ℕ
  | .hh => 0
  | .sn => 1
  | .ht => 2
  | .bd => 3

/-- A note stored in a measure (`MeasureNote` in the source). -/
structure MeasureNote where
  column : ℤ
  rowId : RowId
  duration : ℤ
deriving DecidableEq, Repr

/-- A measure: subdivision count plus its notes (`Measure` in the source). -/
structure Measure where
  subdivisions : ℤ
  notes : List MeasureNote
deriving DecidableEq, Repr

/-- `STAFF.subdivisions`, also `DEFAULT_SUBDIVISIONS`. -/
def DEFAULT_SUBDIVISIONS : ℤ := 16

/-- `STAFF.paddingX`. -/
def paddingX : ℚ := 72

/-- `STAFF.paddingY`, which is also `topLineY`. -/
def topLineY : ℚ := 48

/-- `noteStep = STAFF.lineSpacing / 2`. -/
def noteStep : ℚ := 28 / 2

/-- `COLUMN_STEP = (STAFF.width - STAFF.paddingX * 2) / (STAFF.subdivisions - 1)`. -/
def COLUMN_STEP : ℚ := (920 - 72 * 2) / (16 - 1)

/-- `MAX_HOVER_DISTANCE = noteStep * 1.25`. -/
def MAX_HOVER_DISTANCE : ℚ := noteStep * (125 / 100)

/-- `xForColumn(column) = STAFF.paddingX + column * COLUMN_STEP`. -/
def xForColumn (column : ℤ) : ℚ := paddingX + column * COLUMN_STEP

/-- `yForRow(row) = topLineY + (row - 1) * noteStep`. -/
def yForRow (row : ℚ) : ℚ := topLineY + (row - 1) * noteStep

/-- JavaScript's `Math.round`: round half toward positive infinity. -/
def jsRound (q : ℚ) : ℤ := ⌊q + 1 / 2⌋

/-- The column a pixel x-coordinate snaps to:
`Math.round((x - STAFF.paddingX) / COLUMN_STEP)` in `handlePointerMove`. -/
def nearestColumn (x : ℚ) : ℤ := jsRound ((x - paddingX) / COLUMN_STEP)

/-- The note-shifting step of `handleClick`: a note whose column is `≥ c`
moves right by the inserted duration `d`; other notes are untouched. -/
def shiftNote (c d : ℤ) (n : MeasureNote) : MeasureNote :=
  if c ≤ n.column then { n with column := n.column + d } else n

/-- Sort comparator used by `handleClick`'s `nextNotes.sort`: by column,
then by `rowOrder` of the voice. -/
def noteLe (a b : MeasureNote) : Prop :=
  a.column < b.column ∨ (a.column = b.column ∧ rowOrder a.rowId ≤ rowOrder b.rowId)

instance : DecidableRel noteLe := fun a b => by
  unfold noteLe
  infer_instance

/-- Stable sort of a measure's notes, as `Array.prototype.sort` with the
column-then-row-order comparator. -/
def sortNotes (l : List MeasureNote) : List MeasureNote :=
  List.insertionSort noteLe l

/-- The conflict test of `handleClick`: some shifted note sits exactly at
the target `(column, voice)` pair. -/
def hasConflict (l : List MeasureNote) (c : ℤ) (v : RowId) : Bool :=
  l.any fun n => decide (n.column = c) && decide (n.rowId = v)

/-- The per-measure insertion performed by `handleClick` on the measure at
`hoverSlot.measureIndex`: shift notes at columns `≥ c` right by `d`, abort
if a shifted note occupies `(c, v)`, otherwise add the new note, grow the
subdivision count by `d` and re-sort. -/
def insertNote (m : Measure) (c : ℤ) (v : RowId) (d : ℤ) : Measure :=
  let shifted := m.notes.map (shiftNote c d)
  if hasConflict shifted c v then m
  else { subdivisions := m.subdivisions + d,
         notes := sortNotes (shifted ++ [⟨c, v, d⟩]) }

/-- One step of the `for (const row of NOTE_ROWS)` scan in
`handlePointerMove`: keep the accumulator unless this row is strictly
closer; `none` models the initial `closestRow = null` /
`smallestDistance = Infinity` state. -/
def closestRowAcc (y : ℚ) (acc : Option (NoteRow × ℚ)) (r : NoteRow) : Option (NoteRow × ℚ) :=
  match acc with
  | none => some (r, |yForRow r.row - y|)
  | some (b, s) =>
    if |yForRow r.row - y| < s then some (r, |yForRow r.row - y|) else some (b, s)

/-- The completed row scan of `handlePointerMove`: the closest row and its
distance. -/
def scanRows (y : ℚ) : Option (NoteRow × ℚ) :=
  NOTE_ROWS.foldl (closestRowAcc y) none

/-- The voice lookup of `handlePointerMove`: the closest row, rejected
(`!closestRow || smallestDistance > MAX_HOVER_DISTANCE`) when the smallest
distance exceeds the threshold. -/
def nearestVoice (y : ℚ) : Option NoteRow :=
  (scanRows y).bind fun rs => if MAX_HOVER_DISTANCE < rs.2 then none else some rs.1

/-! ## The score / interaction state machine -/

/-- The hover descriptor (`HoverSlot` in the source). -/
structure HoverSlot where
  measureIndex : ℕ
  column : ℤ
  columnInMeasure : ℤ
  rowId : RowId
  duration : ℤ
deriving DecidableEq, Repr

/-- The two entries of `DURATION_OPTIONS`. -/
inductive DurationOption where
  | sixteenth
  | eighth
deriving DecidableEq, Repr

/-- The `value` field of a `DURATION_OPTIONS` entry. -/
def DurationOption.value : DurationOption → ℤ
  | .sixteenth => 1
  | .eighth => 2

/-- The component state: the `useState` cells `measures`, `currentMeasure`,
`clipboard`, `hoverSlot` and `selectedDuration` (zoom only scales
rendering and is omitted). -/
structure State where
  measures : List Measure
  currentMeasure : ℕ
  clipboard : Option Measure
  hoverSlot : Option HoverSlot
  selectedDuration : ℤ
deriving DecidableEq, Repr

/-- The `measureOffsets` computation, with explicit cursor. -/
def measureOffsetsFrom (cursor : ℤ) : List Measure → List (ℤ × ℤ)
  | [] => []
  | m :: ms => (cursor, m.subdivisions) :: measureOffsetsFrom (cursor + m.subdivisions) ms

/-- `measureOffsets`: each measure's start column and subdivision count. -/
def measureOffsets (ms : List Measure) : List (ℤ × ℤ) :=
  measureOffsetsFrom 0 ms

/-- `totalColumns`: the end of the last measure, or the default when there
are no offsets. -/
def totalColumns (ms : List Measure) : ℤ :=
  match (measureOffsets ms).getLast? with
  | none => DEFAULT_SUBDIVISIONS
  | some (start, subs) => start + subs

/-- The scanning loop of `locateMeasure`: first offset entry whose span
contains the column, with the column made measure-relative. -/
def locateLoop (column : ℤ) : List (ℤ × ℤ) → Option (ℕ × ℤ)
  | [] => none
  | (start, subs) :: rest =>
    if start ≤ column ∧ column < start + subs then some (0, column - start)
    else (locateLoop column rest).map fun r => (r.1 + 1, r.2)

/-- `locateMeasure`: find the measure owning a global column; if the column
is beyond all measures, clamp to the last column of the last measure
(`null` only when there are no measures). -/
def locateMeasure (ms : List Measure) (column : ℤ) : Option (ℕ × ℤ) :=
  match locateLoop column (measureOffsets ms) with
  | some r => some r
  | none =>
    match ms.get? (ms.length - 1) with
    | none => none
    | some m => some (ms.length - 1, m.subdivisions - 1)

/-- `current.map((measure, index) => …)` with the running index made
explicit. -/
def mapMeasures (f : ℕ → Measure → Measure) : ℕ → List Measure → List Measure
  | _, [] => []
  | k, m :: ms => f k m :: mapMeasures f (k + 1) ms

/-- The input events the component reacts to. -/
inductive Op where
  | pointerMove (x y : ℚ)
  | pointerLeave
  | click
  | setDuration (o : DurationOption)
  | clear
  | prevMeasure
  | nextMeasure
  | addMeasure
  | copy
  | paste
deriving DecidableEq, Repr

/-- One event-handler invocation: `handlePointerMove`, `handleMouseLeave`,
`handleClick`, `handleNoteDurationChange`, `handleClear`,
`handlePrevMeasure`, `handleNextMeasure`, `handleAddMeasure`,
`handleCopyMeasure`, `handlePasteMeasure`. -/
def step (s : State) : Op → State
  | .pointerMove x y =>
    let column := nearestColumn x
    if column < 0 ∨ totalColumns s.measures ≤ column then { s with hoverSlot := none }
    else
      match nearestVoice y with
      | none => { s with hoverSlot := none }
      | some row =>
        match locateMeasure s.measures column with
        | none => { s with hoverSlot := none }
        | some loc =>
          { s with hoverSlot := some ⟨loc.1, column, loc.2, row.id, s.selectedDuration⟩ }
  | .pointerLeave => { s with hoverSlot := none }
  | .click =>
    match s.hoverSlot with
    | none => s
    | some slot =>
      { s with measures :=
                 mapMeasures
                   (fun i m => if i = slot.measureIndex
                     then insertNote m slot.columnInMeasure slot.rowId slot.duration else m)
                   0 s.measures }
  | .setDuration o =>
    { s with selectedDuration := o.value,
             hoverSlot := s.hoverSlot.map fun slot => { slot with duration := o.value } }
  | .clear =>
    if ((s.measures.get? s.currentMeasure).map Measure.notes).getD [] = [] then s
    else
      { s with measures :=
                 mapMeasures
                   (fun i m => if i = s.currentMeasure then ⟨DEFAULT_SUBDIVISIONS, []⟩ else m)
                   0 s.measures,
               hoverSlot := none }
  | .prevMeasure => { s with currentMeasure := s.currentMeasure - 1, hoverSlot := none }
  | .nextMeasure =>
    { s with currentMeasure := min (s.measures.length - 1) (s.currentMeasure + 1),
             hoverSlot := none }
  | .addMeasure =>
    { s with measures := s.measures ++ [⟨DEFAULT_SUBDIVISIONS, []⟩],
             currentMeasure := s.measures.length,
             hoverSlot := none }
  | .copy =>
    match s.measures.get? s.currentMeasure with
    | none => s
    | some m => { s with clipboard := some m }
  | .paste =>
    match s.clipboard with
    | none => s
    | some cb =>
      { s with measures :=
                 mapMeasures
                   (fun i m => if i = s.currentMeasure then cb else m) 0 s.measures,
               hoverSlot := none }

/-- The startup state: one empty default measure, nothing copied, no hover,
sixteenth notes selected. -/
def init : State :=
  ⟨[⟨DEFAULT_SUBDIVISIONS, []⟩], 0, none, none, 1⟩

/-- A state the component can actually be in: produced from the startup
state by some sequence of events. -/
def Reachable (s : State) : Prop :=
  ∃ ops : List Op, List.foldl step init ops = s

/-- At most one note per `(column, voice)` pair. -/
def NotesOk (l : List MeasureNote) : Prop :=
  l.Pairwise fun a b => ¬(a.column = b.column ∧ a.rowId = b.rowId)

/-- Well-formedness of a single measure: distinct note slots, all columns
within the subdivision count, a positive subdivision count, and the default
subdivision count whenever the measure is empty. -/
def MeasureOk (m : Measure) : Prop :=
  NotesOk m.notes
  ∧ (∀ n ∈ m.notes, 0 ≤ n.column ∧ n.column < m.subdivisions)
  ∧ 1 ≤ m.subdivisions
  ∧ (m.notes = [] → m.subdivisions = DEFAULT_SUBDIVISIONS)

/-- Well-formedness of a hover descriptor against the measure list. -/
def HoverOk (ms : List Measure) (h : HoverSlot) : Prop :=
  ∃ m, ms.get? h.measureIndex = some m
    ∧ 0 ≤ h.columnInMeasure ∧ h.columnInMeasure < m.subdivisions ∧ 1 ≤ h.duration

/-- The inductive invariant of the component state. -/
def Inv (s : State) : Prop :=
  (∀ i m, s.measures.get? i = some m → MeasureOk m)
  ∧ (∀ cb, s.clipboard = some cb → MeasureOk cb)
  ∧ (∀ h, s.hoverSlot = some h → HoverOk s.measures h)
  ∧ 1 ≤ s.selectedDuration
  ∧ 1 ≤ s.measures.length
  ∧ s.currentMeasure < s.measures.length

/-! ## Basic lemmas about the insert operation -/

theorem hasConflict_eq_true_iff (l : List MeasureNote) (c : ℤ) (v : RowId) :
    hasConflict l c v = true ↔ ∃ n ∈ l, n.column = c ∧ n.rowId = v := by
  simp [hasConflict]

theorem shiftNote_column_of_le {c : ℤ} (d : ℤ) {n : MeasureNote} (h : c ≤ n.column) :
    (shiftNote c d n).column = n.column + d := by
  simp [shiftNote, h]

theorem shiftNote_of_lt {c : ℤ} (d : ℤ) {n : MeasureNote} (h : n.column < c) :
    shiftNote c d n = n := by
  simp [shiftNote, not_le.mpr h]

theorem shiftNote_rowId (c d : ℤ) (n : MeasureNote) :
    (shiftNote c d n).rowId = n.rowId := by
  unfold shiftNote
  split <;> rfl

theorem shiftNote_column_ne {c d : ℤ} (hd : 1 ≤ d) (n : MeasureNote) :
    (shiftNote c d n).column ≠ c := by
  by_cases h : c ≤ n.column
  · rw [shiftNote_column_of_le d h]
    omega
  · rw [shiftNote_of_lt d (not_le.mp h)]
    omega

theorem hasConflict_shifted_eq_false (m : Measure) (c : ℤ) (v : RowId) {d : ℤ}
    (hd : 1 ≤ d) : hasConflict (m.notes.map (shiftNote c d)) c v = false := by
  rw [← Bool.not_eq_true, hasConflict_eq_true_iff]
  rintro ⟨n, hn, hcol, -⟩
  obtain ⟨n0, -, rfl⟩ := List.mem_map.mp hn
  exact shiftNote_column_ne hd n0 hcol

theorem insertNote_of_no_conflict (m : Measure) (c : ℤ) (v : RowId) {d : ℤ}
    (hd : 1 ≤ d) :
    insertNote m c v d =
      { subdivisions := m.subdivisions + d,
        notes := sortNotes (m.notes.map (shiftNote c d) ++ [⟨c, v, d⟩]) } := by
  simp only [insertNote]
  rw [hasConflict_shifted_eq_false m c v hd]
  simp

theorem sortNotes_perm (l : List MeasureNote) : (sortNotes l).Perm l :=
  List.perm_insertionSort noteLe l

/-! ## C2 / C3 / C4: behaviour of a single insertion -/

/-- **C2.** Inserting a note of duration `d ≥ 1` at column `c` in a measure:
the subdivision count grows by exactly `d`; the resulting notes are (a
permutation of, i.e. a re-sorting of) the old notes shifted plus the new
note; every pre-existing note with column `≥ c` has its column increased by
exactly `d`, every other note is untouched, and no note's column
decreases. -/
theorem insertNote_shifts_exactly (m : Measure) (c : ℤ) (v : RowId) (d : ℤ)
    (hd : 1 ≤ d) :
    (insertNote m c v d).subdivisions = m.subdivisions + d
    ∧ (insertNote m c v d).notes.Perm
        (m.notes.map (shiftNote c d) ++ [⟨c, v, d⟩])
    ∧ ∀ n ∈ m.notes,
        (c ≤ n.column → (shiftNote c d n).column = n.column + d)
        ∧ (n.column < c → shiftNote c d n = n)
        ∧ n.column ≤ (shiftNote c d n).column := by
  rw [insertNote_of_no_conflict m c v hd]
  refine ⟨rfl, sortNotes_perm _, ?_⟩
  intro n _
  refine ⟨fun h => shiftNote_column_of_le d h, fun h => shiftNote_of_lt d h, ?_⟩
  by_cases h : c ≤ n.column
  · rw [shiftNote_column_of_le d h]
    omega
  · rw [shiftNote_of_lt d (not_le.mp h)]

/-- Witness for C2 at a concrete input: the second insertion of the spec's
scenario (duration-2 note at column 2 into a measure holding `{4, sn, 1}`). -/
theorem insertNote_shifts_exactly_witness :
    (1 : ℤ) ≤ 2
    ∧ ((insertNote ⟨17, [⟨4, .sn, 1⟩]⟩ 2 .hh 2).subdivisions = 17 + 2
      ∧ (insertNote ⟨17, [⟨4, .sn, 1⟩]⟩ 2 .hh 2).notes.Perm
          (([⟨4, .sn, 1⟩] : List MeasureNote).map (shiftNote 2 2) ++ [⟨2, .hh, 2⟩])
      ∧ ∀ n ∈ ([⟨4, .sn, 1⟩] : List MeasureNote),
          ((2 : ℤ) ≤ n.column → (shiftNote 2 2 n).column = n.column + 2)
          ∧ (n.column < 2 → shiftNote 2 2 n = n)
          ∧ n.column ≤ (shiftNote 2 2 n).column) :=
  ⟨by decide, insertNote_shifts_exactly ⟨17, [⟨4, .sn, 1⟩]⟩ 2 .hh 2 (by decide)⟩

/-- **C3.** If, after shifting, some note occupies exactly the target
`(column, voice)` pair, the whole insertion aborts and the measure is left
structurally identical to its state before the attempt. -/
theorem insertNote_conflict_unchanged (m : Measure) (c : ℤ) (v : RowId) (d : ℤ)
    (h : hasConflict (m.notes.map (shiftNote c d)) c v = true) :
    insertNote m c v d = m := by
  simp only [insertNote]
  rw [h]
  simp

/-- Witness for C3: with duration `0` (the only way the conflict test can
fire), inserting at an occupied slot leaves the measure unchanged. -/
theorem insertNote_conflict_unchanged_witness :
    hasConflict ((⟨16, [⟨3, .sn, 1⟩]⟩ : Measure).notes.map (shiftNote 3 0)) 3 .sn = true
    ∧ insertNote ⟨16, [⟨3, .sn, 1⟩]⟩ 3 .sn 0 = ⟨16, [⟨3, .sn, 1⟩]⟩ :=
  ⟨by decide, insertNote_conflict_unchanged ⟨16, [⟨3, .sn, 1⟩]⟩ 3 .sn 0 (by decide)⟩

/-- **C4.** For any insertion with duration `d ≥ 1` at a column `c ≥ 0`:
after the shift no note occupies column `c`, so the conflict test is false
(the conflict branch is unreachable) and the insertion always commits,
adding the note and growing the subdivision count by `d`. -/
theorem insertNote_always_commits (m : Measure) (c : ℤ) (v : RowId) (d : ℤ)
    (_hc : 0 ≤ c) (hd : 1 ≤ d) :
    (∀ n ∈ m.notes.map (shiftNote c d), n.column ≠ c)
    ∧ hasConflict (m.notes.map (shiftNote c d)) c v = false
    ∧ insertNote m c v d =
        { subdivisions := m.subdivisions + d,
          notes := sortNotes (m.notes.map (shiftNote c d) ++ [⟨c, v, d⟩]) } := by
  refine ⟨?_, hasConflict_shifted_eq_false m c v hd, insertNote_of_no_conflict m c v hd⟩
  intro n hn
  obtain ⟨n0, -, rfl⟩ := List.mem_map.mp hn
  exact shiftNote_column_ne hd n0

/-- Witness for C4: clicking the very slot an existing note occupies
(column 4, voice `sn`) still commits — the old note is shifted out of the
way first. -/
theorem insertNote_always_commits_witness :
    ((0 : ℤ) ≤ 4 ∧ (1 : ℤ) ≤ 1)
    ∧ ((∀ n ∈ (⟨17, [⟨4, .sn, 1⟩]⟩ : Measure).notes.map (shiftNote 4 1), n.column ≠ 4)
      ∧ hasConflict ((⟨17, [⟨4, .sn, 1⟩]⟩ : Measure).notes.map (shiftNote 4 1)) 4 .sn = false
      ∧ insertNote ⟨17, [⟨4, .sn, 1⟩]⟩ 4 .sn 1 =
          { subdivisions := 17 + 1,
            notes := sortNotes ((⟨17, [⟨4, .sn, 1⟩]⟩ : Measure).notes.map (shiftNote 4 1)
              ++ [⟨4, .sn, 1⟩]) }) :=
  ⟨⟨by decide, by decide⟩,
    insertNote_always_commits ⟨17, [⟨4, .sn, 1⟩]⟩ 4 .sn 1 (by decide) (by decide)⟩

/-! ## C1: the concrete three-insertion scenario -/

/-- The measure state after the first two insertions of the spec's concrete
scenario, matching the claim's premise: 19 subdivisions, notes
`{2, hh, 2}` and `{6, sn, 1}`. -/
theorem scenario_first_two_inserts :
    insertNote (insertNote ⟨16, []⟩ 4 .sn 1) 2 .hh 2 =
      ⟨19, [⟨2, .hh, 2⟩, ⟨6, .sn, 1⟩]⟩ := by decide

/-- **Counterexample to C1.** In the spec's scenario, the third insertion
(duration-1 note at column 6, voice `sn`, where `{6, sn, 1}` sits) is NOT
rejected: the measure changes. -/
theorem scenario_third_insert_not_rejected :
    insertNote (insertNote (insertNote ⟨16, []⟩ 4 .sn 1) 2 .hh 2) 6 .sn 1 ≠
      insertNote (insertNote ⟨16, []⟩ 4 .sn 1) 2 .hh 2 := by decide

/-- **C1 (amended).** The full scenario on the code: the first two
insertions give 17 then 19 subdivisions as claimed, but the third insertion
commits — the existing `{6, sn, 1}` is shifted to column 7 and the new note
placed at column 6, leaving 20 subdivisions and three notes. -/
theorem scenario_three_inserts :
    insertNote ⟨16, []⟩ 4 .sn 1 = ⟨17, [⟨4, .sn, 1⟩]⟩
    ∧ insertNote (insertNote ⟨16, []⟩ 4 .sn 1) 2 .hh 2 =
        ⟨19, [⟨2, .hh, 2⟩, ⟨6, .sn, 1⟩]⟩
    ∧ insertNote (insertNote (insertNote ⟨16, []⟩ 4 .sn 1) 2 .hh 2) 6 .sn 1 =
        ⟨20, [⟨2, .hh, 2⟩, ⟨6, .sn, 1⟩, ⟨7, .sn, 1⟩]⟩ := by decide

/-! ## C8: pixel → column → pixel round trip -/

/-- **Counterexample to C8.** At the exact midpoint between columns 0 and 1
the round-trip error equals `COLUMN_STEP / 2`, so it is not strictly less
than `COLUMN_STEP / 2`. -/
theorem roundtrip_midpoint_counterexample :
    |xForColumn (nearestColumn (72 + 388 / 15)) - (72 + 388 / 15)| = COLUMN_STEP / 2
    ∧ ¬ |xForColumn (nearestColumn (72 + 388 / 15)) - (72 + 388 / 15)| < COLUMN_STEP / 2 := by
  have h1 : xForColumn (nearestColumn (72 + 388 / 15)) - (72 + 388 / 15) = 388 / 15 := by
    norm_num [xForColumn, nearestColumn, jsRound, paddingX, COLUMN_STEP]
  rw [h1, abs_of_nonneg (by norm_num)]
  constructor
  · norm_num [COLUMN_STEP]
  · norm_num [COLUMN_STEP]

/-- **C8 (amended).** For every pixel x-coordinate, the round-trip error of
`xForColumn (nearestColumn x)` is at most `COLUMN_STEP / 2` (equality is
attained exactly at the midpoints between adjacent columns). -/
theorem roundtrip_error_le (x : ℚ) :
    |xForColumn (nearestColumn x) - x| ≤ COLUMN_STEP / 2 := by
  have hstep : (0 : ℚ) < COLUMN_STEP := by norm_num [COLUMN_STEP]
  have hround : nearestColumn x = round ((x - paddingX) / COLUMN_STEP) := by
    unfold nearestColumn jsRound
    exact (round_eq _).symm
  set r := (x - paddingX) / COLUMN_STEP with hr
  have hx : x = paddingX + r * COLUMN_STEP := by
    rw [hr]
    field_simp
  have hdiff : xForColumn (nearestColumn x) - x = ((round r : ℚ) - r) * COLUMN_STEP := by
    rw [hround]
    unfold xForColumn
    rw [hx]
    ring
  rw [hdiff, abs_mul, abs_of_pos hstep, abs_sub_comm]
  calc |r - ((round r : ℚ))| * COLUMN_STEP ≤ 1 / 2 * COLUMN_STEP :=
        mul_le_mul_of_nonneg_right (abs_sub_round r) hstep.le
    _ = COLUMN_STEP / 2 := by ring

/-! ## C9: the voice lookup -/

theorem foldl_closestRowAcc_spec (y : ℚ) :
    ∀ (l : List NoteRow) (acc : Option (NoteRow × ℚ)),
      (∀ q, acc = some q → q.2 = |yForRow q.1.row - y|) →
      ∀ p, l.foldl (closestRowAcc y) acc = some p →
        p.2 = |yForRow p.1.row - y|
        ∧ (∀ q ∈ l, p.2 ≤ |yForRow q.row - y|)
        ∧ (∀ q, acc = some q → p.2 ≤ q.2)
        ∧ (acc = none → p.1 ∈ l)
        ∧ (∀ q, acc = some q → p.1 = q.1 ∨ p.1 ∈ l) := by
  intro l
  induction l with
  | nil =>
    intro acc hinv p hp
    simp only [List.foldl] at hp
    refine ⟨hinv p hp, by simp, ?_, ?_, ?_⟩
    · intro q hq
      rw [hp] at hq
      cases hq
      exact le_refl _
    · intro h
      rw [h] at hp
      cases hp
    · intro q hq
      rw [hp] at hq
      cases hq
      exact Or.inl rfl
  | cons r rest ih =>
    intro acc hinv p hp
    rw [List.foldl_cons] at hp
    have hinv' : ∀ q, closestRowAcc y acc r = some q → q.2 = |yForRow q.1.row - y| := by
      intro q hq
      cases acc with
      | none =>
        simp only [closestRowAcc] at hq
        cases hq
        rfl
      | some b =>
        obtain ⟨b1, b2⟩ := b
        simp only [closestRowAcc] at hq
        split at hq
        · cases hq
          rfl
        · cases hq
          exact hinv (b1, b2) rfl
    obtain ⟨h1, h2, h3, -, h5⟩ := ih (closestRowAcc y acc r) hinv' p hp
    refine ⟨h1, ?_, ?_, ?_, ?_⟩
    · intro q hq
      rcases List.mem_cons.mp hq with hq' | hq'
      · subst hq'
        cases acc with
        | none => simpa using h3 (q, |yForRow q.row - y|) rfl
        | some b =>
          obtain ⟨b1, b2⟩ := b
          by_cases hlt : |yForRow q.row - y| < b2
          · simpa using h3 (q, |yForRow q.row - y|) (by simp [closestRowAcc, hlt])
          · have hb : p.2 ≤ b2 := by
              simpa using h3 (b1, b2) (by simp [closestRowAcc, hlt])
            exact le_trans hb (not_lt.mp hlt)
      · exact h2 q hq'
    · intro q hq
      obtain ⟨q1, q2⟩ := q
      by_cases hlt : |yForRow r.row - y| < q2
      · have hr2 : p.2 ≤ |yForRow r.row - y| := by
          simpa using h3 (r, |yForRow r.row - y|) (by simp [closestRowAcc, hq, hlt])
        exact le_trans hr2 (le_of_lt hlt)
      · simpa using h3 (q1, q2) (by simp [closestRowAcc, hq, hlt])
    · intro haccnone
      have := h5 (r, |yForRow r.row - y|) (by simp [closestRowAcc, haccnone])
      rcases this with h | h
      · exact List.mem_cons.mpr (Or.inl h)
      · exact List.mem_cons.mpr (Or.inr h)
    · intro q hq
      obtain ⟨q1, q2⟩ := q
      by_cases hlt : |yForRow r.row - y| < q2
      · have := h5 (r, |yForRow r.row - y|) (by simp [closestRowAcc, hq, hlt])
        rcases this with h | h
        · exact Or.inr (List.mem_cons.mpr (Or.inl h))
        · exact Or.inr (List.mem_cons.mpr (Or.inr h))
      · have := h5 (q1, q2) (by simp [closestRowAcc, hq, hlt])
        rcases this with h | h
        · exact Or.inl h
        · exact Or.inr (List.mem_cons.mpr (Or.inr h))

theorem foldl_closestRowAcc_isSome (y : ℚ) :
    ∀ (l : List NoteRow) (p : NoteRow × ℚ),
      (l.foldl (closestRowAcc y) (some p)).isSome := by
  intro l
  induction l with
  | nil => intro p; rfl
  | cons r rest ih =>
    intro p
    obtain ⟨p1, p2⟩ := p
    rw [List.foldl_cons]
    simp only [closestRowAcc]
    split
    · exact ih _
    · exact ih _

theorem scanRows_isSome (y : ℚ) : (scanRows y).isSome := by
  have h : scanRows y = List.foldl (closestRowAcc y)
      (some (⟨.hh, "Hi-hat", 0, .x, .up⟩, |yForRow 0 - y|))
      [⟨.sn, "Snare", 4, .circle, .up⟩, ⟨.ht, "High tom", 5, .circle, .up⟩,
       ⟨.bd, "Kick", 8, .circle, .down⟩] := rfl
  rw [h]
  exact foldl_closestRowAcc_isSome y _ _

theorem scanRows_spec (y : ℚ) (p : NoteRow × ℚ) (hp : scanRows y = some p) :
    p.2 = |yForRow p.1.row - y|
    ∧ (∀ q ∈ NOTE_ROWS, p.2 ≤ |yForRow q.row - y|)
    ∧ p.1 ∈ NOTE_ROWS := by
  obtain ⟨h1, h2, -, h4, -⟩ :=
    foldl_closestRowAcc_spec y NOTE_ROWS none (by simp) p hp
  exact ⟨h1, h2, h4 rfl⟩

/-- **C9.** The voice lookup returns a voice of `NOTE_ROWS` whose staff
line position minimizes the absolute pixel distance to `y`, within the
`MAX_HOVER_DISTANCE` threshold; if the minimal distance exceeds the
threshold it returns no match, and in that case `handlePointerMove` clears
the hover state. -/
theorem nearestVoice_spec (y : ℚ) :
    (∀ r, nearestVoice y = some r →
        r ∈ NOTE_ROWS
        ∧ (∀ q ∈ NOTE_ROWS, |yForRow r.row - y| ≤ |yForRow q.row - y|)
        ∧ |yForRow r.row - y| ≤ MAX_HOVER_DISTANCE)
    ∧ (nearestVoice y = none →
        ∀ q ∈ NOTE_ROWS, MAX_HOVER_DISTANCE < |yForRow q.row - y|)
    ∧ (∀ (s : State) (x : ℚ), nearestVoice y = none →
        (step s (Op.pointerMove x y)).hoverSlot = none) := by
  obtain ⟨p, hp⟩ := Option.isSome_iff_exists.mp (scanRows_isSome y)
  obtain ⟨p1, p2⟩ := p
  obtain ⟨h1', h2', h3'⟩ := scanRows_spec y (p1, p2) hp
  have h1 : p2 = |yForRow p1.row - y| := h1'
  have h2 : ∀ q ∈ NOTE_ROWS, p2 ≤ |yForRow q.row - y| := h2'
  have h3 : p1 ∈ NOTE_ROWS := h3'
  have hnv : nearestVoice y = if MAX_HOVER_DISTANCE < p2 then none else some p1 := by
    unfold nearestVoice
    rw [hp, Option.some_bind]
  refine ⟨?_, ?_, ?_⟩
  · intro r hr
    rw [hnv] at hr
    by_cases hth : MAX_HOVER_DISTANCE < p2
    · rw [if_pos hth] at hr
      cases hr
    · rw [if_neg hth] at hr
      injection hr with hr1
      subst hr1
      refine ⟨h3, ?_, ?_⟩
      · intro q hq
        have := h2 q hq
        rw [h1] at this
        exact this
      · rw [← h1]
        exact not_lt.mp hth
  · intro hr q hq
    rw [hnv] at hr
    by_cases hth : MAX_HOVER_DISTANCE < p2
    · have hq2 := h2 q hq
      rw [h1] at hq2
      rw [h1] at hth
      exact lt_of_lt_of_le hth hq2
    · rw [if_neg hth] at hr
      cases hr
  · intro s x hr
    by_cases hcol : nearestColumn x < 0 ∨ totalColumns s.measures ≤ nearestColumn x
    · simp [step, hcol]
    · simp [step, hcol, hr]

/-- At `y = 200` every voice line is farther than the threshold. -/
theorem nearestVoice_far_none : nearestVoice 200 = none := by
  have ha : |yForRow 0 - (200 : ℚ)| = 166 := by
    rw [show yForRow 0 - (200 : ℚ) = -166 from by norm_num [yForRow, topLineY, noteStep]]
    rw [abs_of_nonpos (by norm_num)]
    norm_num
  have hb : |yForRow 4 - (200 : ℚ)| = 110 := by
    rw [show yForRow 4 - (200 : ℚ) = -110 from by norm_num [yForRow, topLineY, noteStep]]
    rw [abs_of_nonpos (by norm_num)]
    norm_num
  have hc : |yForRow 5 - (200 : ℚ)| = 96 := by
    rw [show yForRow 5 - (200 : ℚ) = -96 from by norm_num [yForRow, topLineY, noteStep]]
    rw [abs_of_nonpos (by norm_num)]
    norm_num
  have hd : |yForRow 8 - (200 : ℚ)| = 54 := by
    rw [show yForRow 8 - (200 : ℚ) = -54 from by norm_num [yForRow, topLineY, noteStep]]
    rw [abs_of_nonpos (by norm_num)]
    norm_num
  have h1 : scanRows 200 = some (⟨.bd, "Kick", 8, .circle, .down⟩, 54) := by
    unfold scanRows NOTE_ROWS
    rw [List.foldl_cons, List.foldl_cons, List.foldl_cons, List.foldl_cons, List.foldl_nil]
    rw [show closestRowAcc 200 none ⟨.hh, "Hi-hat", 0, .x, .up⟩
        = some (⟨.hh, "Hi-hat", 0, .x, .up⟩, 166) from by
      simp only [closestRowAcc]
      norm_num [ha]]
    rw [show closestRowAcc 200 (some (⟨.hh, "Hi-hat", 0, .x, .up⟩, 166))
          ⟨.sn, "Snare", 4, .circle, .up⟩
        = some (⟨.sn, "Snare", 4, .circle, .up⟩, 110) from by
      simp only [closestRowAcc]
      norm_num [hb]]
    rw [show closestRowAcc 200 (some (⟨.sn, "Snare", 4, .circle, .up⟩, 110))
          ⟨.ht, "High tom", 5, .circle, .up⟩
        = some (⟨.ht, "High tom", 5, .circle, .up⟩, 96) from by
      simp only [closestRowAcc]
      norm_num [hc]]
    simp only [closestRowAcc]
    norm_num [hd]
  unfold nearestVoice
  rw [h1, Option.some_bind]
  rw [if_pos (by norm_num [MAX_HOVER_DISTANCE, noteStep])]

/-- Witness for C9: at `y = 200` every voice line is farther than the
threshold, so the lookup rejects. -/
theorem nearestVoice_spec_witness :
    nearestVoice 200 = none
    ∧ ∀ q ∈ NOTE_ROWS, MAX_HOVER_DISTANCE < |yForRow q.row - 200| :=
  ⟨nearestVoice_far_none, (nearestVoice_spec 200).2.1 nearestVoice_far_none⟩

/-! ## Lemmas about the state machine -/

theorem mapMeasures_length (f : ℕ → Measure → Measure) :
    ∀ (ms : List Measure) (k : ℕ), (mapMeasures f k ms).length = ms.length := by
  intro ms
  induction ms with
  | nil => intro k; rfl
  | cons m ms ih => intro k; simp [mapMeasures, ih]

theorem mapMeasures_get? (f : ℕ → Measure → Measure) :
    ∀ (ms : List Measure) (k i : ℕ),
      (mapMeasures f k ms).get? i = (ms.get? i).map (f (k + i)) := by
  intro ms
  induction ms with
  | nil => intro k i; simp [mapMeasures]
  | cons m ms ih =>
    intro k i
    cases i with
    | zero => simp [mapMeasures]
    | succ j =>
      have hk : k + (j + 1) = (k + 1) + j := by omega
      simp only [mapMeasures, List.get?_cons_succ]
      rw [ih (k + 1) j, hk]

theorem locateLoop_sound (column : ℤ) :
    ∀ (ms : List Measure) (cursor : ℤ) (i : ℕ) (cim : ℤ),
      locateLoop column (measureOffsetsFrom cursor ms) = some (i, cim) →
      ∃ m, ms.get? i = some m ∧ 0 ≤ cim ∧ cim < m.subdivisions := by
  intro ms
  induction ms with
  | nil =>
    intro cursor i cim h
    simp [measureOffsetsFrom, locateLoop] at h
  | cons m ms ih =>
    intro cursor i cim h
    simp only [measureOffsetsFrom, locateLoop] at h
    split at h
    · rename_i hcond
      simp only [Option.some.injEq, Prod.mk.injEq] at h
      obtain ⟨hi, hcim⟩ := h
      subst hi
      subst hcim
      exact ⟨m, rfl, by omega, by omega⟩
    · rw [Option.map_eq_some'] at h
      obtain ⟨⟨i', cim'⟩, hrec, heq⟩ := h
      simp only [Prod.mk.injEq] at heq
      obtain ⟨hi, hcim⟩ := heq
      subst hi
      subst hcim
      obtain ⟨m', hm', h0, h1⟩ := ih (cursor + m.subdivisions) i' cim' hrec
      exact ⟨m', by simpa using hm', h0, h1⟩

theorem locateMeasure_sound (ms : List Measure) (column : ℤ)
    (hsubs : ∀ i m, ms.get? i = some m → 1 ≤ m.subdivisions) (i : ℕ) (cim : ℤ)
    (h : locateMeasure ms column = some (i, cim)) :
    ∃ m, ms.get? i = some m ∧ 0 ≤ cim ∧ cim < m.subdivisions := by
  unfold locateMeasure at h
  split at h
  · rename_i r hloop
    obtain ⟨r1, r2⟩ := r
    simp only [Option.some.injEq, Prod.mk.injEq] at h
    obtain ⟨hi, hcim⟩ := h
    subst hi
    subst hcim
    exact locateLoop_sound column ms 0 r1 r2 hloop
  · split at h
    · simp at h
    · rename_i mlast hlast
      simp only [Option.some.injEq, Prod.mk.injEq] at h
      obtain ⟨hi, hcim⟩ := h
      subst hi
      subst hcim
      have hge := hsubs _ _ hlast
      exact ⟨mlast, hlast, by omega, by omega⟩

theorem NotesOk_of_perm {l l' : List MeasureNote} (hp : l.Perm l') (h : NotesOk l') :
    NotesOk l := by
  refine (List.Perm.pairwise_iff ?_ hp).mpr h
  intro a b hab hc
  exact hab ⟨hc.1.symm, hc.2.symm⟩

theorem insertNote_subdivisions_cases (m : Measure) (c : ℤ) (v : RowId) (d : ℤ) :
    (insertNote m c v d).subdivisions = m.subdivisions
    ∨ (insertNote m c v d).subdivisions = m.subdivisions + d := by
  simp only [insertNote]
  split
  · exact Or.inl rfl
  · exact Or.inr rfl

theorem measureOk_default : MeasureOk ⟨DEFAULT_SUBDIVISIONS, []⟩ :=
  ⟨List.Pairwise.nil, by simp, by decide, fun _ => rfl⟩

theorem insertNote_ok {m : Measure} (hm : MeasureOk m) (c : ℤ) (v : RowId) {d : ℤ}
    (hc0 : 0 ≤ c) (hcs : c < m.subdivisions) (hd : 1 ≤ d) :
    MeasureOk (insertNote m c v d) := by
  obtain ⟨hdist, hrange, hsub, -⟩ := hm
  rw [insertNote_of_no_conflict m c v hd]
  refine ⟨?_, ?_, ?_, ?_⟩
  · apply NotesOk_of_perm (sortNotes_perm _)
    rw [NotesOk, List.pairwise_append]
    refine ⟨?_, by simp, ?_⟩
    · rw [List.pairwise_map]
      refine hdist.imp ?_
      intro a b hab hcon
      apply hab
      rw [shiftNote_rowId, shiftNote_rowId] at hcon
      refine ⟨?_, hcon.2⟩
      have h1 := hcon.1
      by_cases ha : c ≤ a.column <;> by_cases hb : c ≤ b.column <;>
        simp [shiftNote, ha, hb] at h1 <;> omega
    · intro a ha b hb
      simp only [List.mem_singleton] at hb
      subst hb
      obtain ⟨a0, -, rfl⟩ := List.mem_map.mp ha
      intro hcon
      exact shiftNote_column_ne hd a0 hcon.1
  · intro n hn
    dsimp only at hn ⊢
    have hn' : n ∈ m.notes.map (shiftNote c d) ++ [⟨c, v, d⟩] :=
      (sortNotes_perm _).mem_iff.mp hn
    rcases List.mem_append.mp hn' with h | h
    · obtain ⟨a0, ha0, rfl⟩ := List.mem_map.mp h
      obtain ⟨h0, h1⟩ := hrange a0 ha0
      by_cases hle : c ≤ a0.column
      · rw [shiftNote_column_of_le d hle]
        constructor <;> omega
      · rw [shiftNote_of_lt d (not_le.mp hle)]
        constructor <;> omega
    · simp only [List.mem_singleton] at h
      subst h
      show 0 ≤ c ∧ c < m.subdivisions + d
      exact ⟨hc0, by omega⟩
  · dsimp only
    omega
  · intro hnil
    exfalso
    have hnil' : sortNotes (m.notes.map (shiftNote c d) ++ [⟨c, v, d⟩]) = [] := hnil
    have hlen := (sortNotes_perm (m.notes.map (shiftNote c d) ++ [⟨c, v, d⟩])).length_eq
    rw [hnil'] at hlen
    simp at hlen

theorem Inv.hoverNone {s : State} (h : Inv s) : Inv { s with hoverSlot := none } := by
  obtain ⟨hms, hcb, -, hdur, hlen, hcur⟩ := h
  exact ⟨hms, hcb, by simp, hdur, hlen, hcur⟩

theorem step_preserves_inv {s : State} (h : Inv s) (o : Op) : Inv (step s o) := by
  obtain ⟨hms, hcb, hhv, hdur, hlen, hcur⟩ := h
  cases o with
  | pointerMove x y =>
    by_cases hcol : nearestColumn x < 0 ∨ totalColumns s.measures ≤ nearestColumn x
    · have hstep : step s (.pointerMove x y) = { s with hoverSlot := none } := by
        simp [step, hcol]
      rw [hstep]
      exact Inv.hoverNone ⟨hms, hcb, hhv, hdur, hlen, hcur⟩
    · cases hv : nearestVoice y with
      | none =>
        have hstep : step s (.pointerMove x y) = { s with hoverSlot := none } := by
          simp [step, hcol, hv]
        rw [hstep]
        exact Inv.hoverNone ⟨hms, hcb, hhv, hdur, hlen, hcur⟩
      | some row =>
        cases hloc : locateMeasure s.measures (nearestColumn x) with
        | none =>
          have hstep : step s (.pointerMove x y) = { s with hoverSlot := none } := by
            simp [step, hcol, hv, hloc]
          rw [hstep]
          exact Inv.hoverNone ⟨hms, hcb, hhv, hdur, hlen, hcur⟩
        | some loc =>
          have hstep : step s (.pointerMove x y)
              = { s with hoverSlot := some (HoverSlot.mk loc.1 (nearestColumn x) loc.2 row.id s.selectedDuration) } := by
            simp [step, hcol, hv, hloc]
          rw [hstep]
          refine ⟨hms, hcb, ?_, hdur, hlen, hcur⟩
          intro hs heq
          have heq' : some (HoverSlot.mk loc.1 (nearestColumn x) loc.2 row.id
              s.selectedDuration) = some hs := heq
          injection heq' with heq''
          subst heq''
          obtain ⟨mt, hmt, hc0, hc1⟩ := locateMeasure_sound s.measures (nearestColumn x)
            (fun i m hm => (hms i m hm).2.2.1) loc.1 loc.2 hloc
          exact ⟨mt, hmt, hc0, hc1, hdur⟩
  | pointerLeave =>
    exact Inv.hoverNone ⟨hms, hcb, hhv, hdur, hlen, hcur⟩
  | click =>
    cases hsl : s.hoverSlot with
    | none =>
      have hstep : step s .click = s := by simp [step, hsl]
      rw [hstep]
      exact ⟨hms, hcb, hhv, hdur, hlen, hcur⟩
    | some slot =>
      obtain ⟨mt, hmt, h0, h1, hd1⟩ := hhv slot hsl
      have hstep : step s .click
          = { s with measures :=
                       mapMeasures
                         (fun i m => if i = slot.measureIndex
                           then insertNote m slot.columnInMeasure slot.rowId slot.duration
                           else m)
                         0 s.measures } := by
        simp [step, hsl]
      rw [hstep]
      refine ⟨?_, hcb, ?_, hdur, ?_, ?_⟩
      · intro i m hm
        have hm' : (mapMeasures
            (fun i m => if i = slot.measureIndex
              then insertNote m slot.columnInMeasure slot.rowId slot.duration else m)
            0 s.measures).get? i = some m := hm
        rw [mapMeasures_get?, Option.map_eq_some'] at hm'
        obtain ⟨m0, hm0, hfm⟩ := hm'
        have hzi : 0 + i = i := by omega
        rw [hzi] at hfm
        by_cases hi : i = slot.measureIndex
        · rw [if_pos hi] at hfm
          subst hi
          have hmm : m0 = mt := by
            rw [hmt] at hm0
            injection hm0 with hmm'
            exact hmm'.symm
          subst hmm
          rw [← hfm]
          exact insertNote_ok (hms _ _ hmt) _ _ h0 h1 hd1
        · rw [if_neg hi] at hfm
          rw [← hfm]
          exact hms _ _ hm0
      · intro hs heq
        have heq0 : s.hoverSlot = some hs := heq
        rw [hsl] at heq0
        injection heq0 with hseq
        subst hseq
        refine ⟨insertNote mt slot.columnInMeasure slot.rowId slot.duration, ?_, h0, ?_, hd1⟩
        · show (mapMeasures
              (fun i m => if i = slot.measureIndex
                then insertNote m slot.columnInMeasure slot.rowId slot.duration else m)
              0 s.measures).get? slot.measureIndex
            = some (insertNote mt slot.columnInMeasure slot.rowId slot.duration)
          rw [mapMeasures_get?, hmt]
          simp
        · rcases insertNote_subdivisions_cases mt slot.columnInMeasure slot.rowId slot.duration
            with he | he <;> rw [he] <;> omega
      · show 1 ≤ (mapMeasures _ 0 s.measures).length
        rw [mapMeasures_length]
        exact hlen
      · show s.currentMeasure < (mapMeasures _ 0 s.measures).length
        rw [mapMeasures_length]
        exact hcur
  | setDuration o =>
    have hval : (1 : ℤ) ≤ o.value := by cases o <;> decide
    refine ⟨hms, hcb, ?_, hval, hlen, hcur⟩
    intro hs heq
    have heq' : s.hoverSlot.map (fun slot => { slot with duration := o.value })
        = some hs := heq
    rw [Option.map_eq_some'] at heq'
    obtain ⟨slot, hslot, hfs⟩ := heq'
    obtain ⟨mt, hmt, h0, h1, -⟩ := hhv slot hslot
    subst hfs
    exact ⟨mt, hmt, h0, h1, hval⟩
  | clear =>
    simp only [step]
    split
    · exact ⟨hms, hcb, hhv, hdur, hlen, hcur⟩
    · refine ⟨?_, hcb, by simp, hdur, ?_, ?_⟩
      · intro i m hm
        have hm' : (mapMeasures
            (fun i m => if i = s.currentMeasure then ⟨DEFAULT_SUBDIVISIONS, []⟩ else m)
            0 s.measures).get? i = some m := hm
        rw [mapMeasures_get?, Option.map_eq_some'] at hm'
        obtain ⟨m0, hm0, hfm⟩ := hm'
        have hzi : 0 + i = i := by omega
        rw [hzi] at hfm
        by_cases hi : i = s.currentMeasure
        · rw [if_pos hi] at hfm
          rw [← hfm]
          exact measureOk_default
        · rw [if_neg hi] at hfm
          rw [← hfm]
          exact hms _ _ hm0
      · show 1 ≤ (mapMeasures _ 0 s.measures).length
        rw [mapMeasures_length]
        exact hlen
      · show s.currentMeasure < (mapMeasures _ 0 s.measures).length
        rw [mapMeasures_length]
        exact hcur
  | prevMeasure =>
    refine ⟨hms, hcb, fun h' heq => Option.noConfusion heq, hdur, hlen, ?_⟩
    show s.currentMeasure - 1 < s.measures.length
    omega
  | nextMeasure =>
    refine ⟨hms, hcb, fun h' heq => Option.noConfusion heq, hdur, hlen, ?_⟩
    show min (s.measures.length - 1) (s.currentMeasure + 1) < s.measures.length
    omega
  | addMeasure =>
    refine ⟨?_, hcb, fun h' heq => Option.noConfusion heq, hdur, ?_, ?_⟩
    · intro i m hm
      have hm' : (s.measures ++ [(⟨DEFAULT_SUBDIVISIONS, []⟩ : Measure)]).get? i = some m := hm
      by_cases hi : i < s.measures.length
      · rw [List.get?_append hi] at hm'
        exact hms _ _ hm'
      · rw [List.get?_append_right (le_of_not_lt hi)] at hm'
        cases hj : i - s.measures.length with
        | zero =>
          rw [hj] at hm'
          have hm'' : some (⟨DEFAULT_SUBDIVISIONS, []⟩ : Measure) = some m := hm'
          injection hm'' with hm3
          subst hm3
          exact measureOk_default
        | succ k =>
          rw [hj] at hm'
          simp at hm'
    · show 1 ≤ (s.measures ++ [(⟨DEFAULT_SUBDIVISIONS, []⟩ : Measure)]).length
      simp
    · show s.measures.length < (s.measures ++ [(⟨DEFAULT_SUBDIVISIONS, []⟩ : Measure)]).length
      simp
  | copy =>
    cases hg : s.measures.get? s.currentMeasure with
    | none =>
      have hstep : step s .copy = s := by
        simp only [step]
        rw [hg]
      rw [hstep]
      exact ⟨hms, hcb, hhv, hdur, hlen, hcur⟩
    | some m =>
      have hstep : step s .copy = { s with clipboard := some m } := by
        simp only [step]
        rw [hg]
      rw [hstep]
      refine ⟨hms, ?_, hhv, hdur, hlen, hcur⟩
      intro cb hcbe
      have hcbe' : some m = some cb := hcbe
      injection hcbe' with hcbe''
      subst hcbe''
      exact hms _ _ hg
  | paste =>
    cases hcl : s.clipboard with
    | none =>
      have hstep : step s .paste = s := by simp [step, hcl]
      rw [hstep]
      exact ⟨hms, hcb, hhv, hdur, hlen, hcur⟩
    | some cb0 =>
      have hstep : step s .paste
          = { s with measures :=
                       mapMeasures (fun i m => if i = s.currentMeasure then cb0 else m)
                         0 s.measures,
                     hoverSlot := none } := by
        simp [step, hcl]
      rw [hstep]
      refine ⟨?_, ?_, by simp, hdur, ?_, ?_⟩
      · intro i m hm
        have hm' : (mapMeasures (fun i m => if i = s.currentMeasure then cb0 else m)
            0 s.measures).get? i = some m := hm
        rw [mapMeasures_get?, Option.map_eq_some'] at hm'
        obtain ⟨m0, hm0, hfm⟩ := hm'
        have hzi : 0 + i = i := by omega
        rw [hzi] at hfm
        by_cases hi : i = s.currentMeasure
        · rw [if_pos hi] at hfm
          rw [← hfm]
          exact hcb cb0 hcl
        · rw [if_neg hi] at hfm
          rw [← hfm]
          exact hms _ _ hm0
      · intro cb hcbe
        have hcbe' : s.clipboard = some cb := hcbe
        exact hcb cb hcbe'
      · show 1 ≤ (mapMeasures _ 0 s.measures).length
        rw [mapMeasures_length]
        exact hlen
      · show s.currentMeasure < (mapMeasures _ 0 s.measures).length
        rw [mapMeasures_length]
        exact hcur

theorem init_inv : Inv init := by
  refine ⟨?_, ?_, ?_, by decide, by decide, by decide⟩
  · intro i m hm
    cases i with
    | zero =>
      have hm' : some (⟨DEFAULT_SUBDIVISIONS, []⟩ : Measure) = some m := hm
      injection hm' with hm''
      subst hm''
      exact measureOk_default
    | succ k =>
      have hm' : ([] : List Measure).get? k = some m := hm
      simp at hm'
  · intro cb hcbe
    exact Option.noConfusion hcbe
  · intro hs heq
    exact Option.noConfusion heq

theorem foldl_step_inv (ops : List Op) :
    ∀ s : State, Inv s → Inv (List.foldl step s ops) := by
  induction ops with
  | nil => intro s h; exact h
  | cons o ops ih =>
    intro s h
    rw [List.foldl_cons]
    exact ih _ (step_preserves_inv h o)

theorem reachable_inv {s : State} (h : Reachable s) : Inv s := by
  obtain ⟨ops, hops⟩ := h
  rw [← hops]
  exact foldl_step_inv ops init init_inv

/-! ## C5 / C10: invariants of reachable states -/

/-- **C5.** In every reachable state, every measure contains at most one
note per `(column, voice)` pair; this holds initially and is preserved by
every operation. -/
theorem reachable_at_most_one_note_per_slot {s : State} (h : Reachable s) :
    ∀ i m, s.measures.get? i = some m →
      m.notes.Pairwise fun a b => ¬(a.column = b.column ∧ a.rowId = b.rowId) :=
  fun i m hm => ((reachable_inv h).1 i m hm).1

/-- Witness for C5 at the startup state. -/
theorem reachable_at_most_one_note_per_slot_witness :
    Reachable init
    ∧ ∀ i m, init.measures.get? i = some m →
        m.notes.Pairwise fun a b => ¬(a.column = b.column ∧ a.rowId = b.rowId) :=
  ⟨⟨[], rfl⟩, reachable_at_most_one_note_per_slot ⟨[], rfl⟩⟩

/-- **C10.** In every reachable state, every note of every measure has a
column `c` with `0 ≤ c <` that measure's subdivision count. -/
theorem reachable_note_columns_in_range {s : State} (h : Reachable s) :
    ∀ i m, s.measures.get? i = some m →
      ∀ n ∈ m.notes, 0 ≤ n.column ∧ n.column < m.subdivisions :=
  fun i m hm => ((reachable_inv h).1 i m hm).2.1

/-- Witness for C10 at the reachable state obtained by adding a measure. -/
theorem reachable_note_columns_in_range_witness :
    Reachable (List.foldl step init [Op.addMeasure])
    ∧ ∀ i m, (List.foldl step init [Op.addMeasure]).measures.get? i = some m →
        ∀ n ∈ m.notes, 0 ≤ n.column ∧ n.column < m.subdivisions :=
  ⟨⟨[Op.addMeasure], rfl⟩, reachable_note_columns_in_range ⟨[Op.addMeasure], rfl⟩⟩

/-! ## C7: clearing a measure -/

/-- **Counterexample to C7.** On a (unreachable) measure with 17
subdivisions and no notes, `handleClear` is a guarded no-op, so the result
keeps 17 subdivisions instead of the default 16. -/
theorem clear_nondefault_counterexample :
    step ⟨[⟨17, []⟩], 0, none, none, 1⟩ Op.clear = ⟨[⟨17, []⟩], 0, none, none, 1⟩
    ∧ ¬ (step ⟨[⟨17, []⟩], 0, none, none, 1⟩ Op.clear).measures.get? 0
        = some ⟨DEFAULT_SUBDIVISIONS, []⟩ := by
  constructor
  · decide
  · decide

/-- **C7 (amended).** In every reachable state, clearing the current
measure leaves it with the default subdivision count and zero notes and
all other measures unchanged (when the measure has notes it is reset; when
it is empty the operation is a no-op, but a reachable empty measure
already has the default subdivision count). -/
theorem clear_yields_default {s : State} (h : Reachable s) :
    (step s Op.clear).measures.get? s.currentMeasure = some ⟨DEFAULT_SUBDIVISIONS, []⟩
    ∧ (∀ j, j ≠ s.currentMeasure → (step s Op.clear).measures.get? j = s.measures.get? j)
    ∧ (step s Op.clear).measures.length = s.measures.length := by
  obtain ⟨hms, -, -, -, hlen, hcur⟩ := reachable_inv h
  obtain ⟨m, hm⟩ : ∃ m, s.measures.get? s.currentMeasure = some m := by
    cases hg : s.measures.get? s.currentMeasure with
    | none => exact absurd (List.get?_eq_none.mp hg) (by omega)
    | some m => exact ⟨m, rfl⟩
  simp only [step]
  split
  · rename_i hempty
    rw [hm] at hempty
    simp only [Option.map_some', Option.getD_some] at hempty
    have hdef : m = ⟨DEFAULT_SUBDIVISIONS, []⟩ := by
      obtain ⟨-, -, -, hnil⟩ := hms _ _ hm
      have h2 := hnil hempty
      calc m = ⟨m.subdivisions, m.notes⟩ := rfl
        _ = ⟨DEFAULT_SUBDIVISIONS, []⟩ := by rw [hempty, h2]
    refine ⟨?_, fun j hj => rfl, rfl⟩
    rw [hm, hdef]
  · refine ⟨?_, ?_, ?_⟩
    · show (mapMeasures
          (fun i m => if i = s.currentMeasure then ⟨DEFAULT_SUBDIVISIONS, []⟩ else m)
          0 s.measures).get? s.currentMeasure = some ⟨DEFAULT_SUBDIVISIONS, []⟩
      rw [mapMeasures_get?, hm]
      simp
    · intro j hj
      show (mapMeasures
          (fun i m => if i = s.currentMeasure then ⟨DEFAULT_SUBDIVISIONS, []⟩ else m)
          0 s.measures).get? j = s.measures.get? j
      rw [mapMeasures_get?]
      cases hgj : s.measures.get? j with
      | none => rfl
      | some mj => simp [hj]
    · show (mapMeasures
          (fun i m => if i = s.currentMeasure then ⟨DEFAULT_SUBDIVISIONS, []⟩ else m)
          0 s.measures).length = s.measures.length
      rw [mapMeasures_length]

/-- Witness for C7 (amended) at the startup state. -/
theorem clear_yields_default_witness :
    Reachable init
    ∧ ((step init Op.clear).measures.get? init.currentMeasure
        = some ⟨DEFAULT_SUBDIVISIONS, []⟩
      ∧ (∀ j, j ≠ init.currentMeasure →
          (step init Op.clear).measures.get? j = init.measures.get? j)
      ∧ (step init Op.clear).measures.length = init.measures.length) :=
  ⟨⟨[], rfl⟩, clear_yields_default ⟨[], rfl⟩⟩

/-! ## C6: copy and paste -/

theorem step_clipboard_of_ne_copy (s : State) {o : Op} (h : o ≠ Op.copy) :
    (step s o).clipboard = s.clipboard := by
  cases o with
  | pointerMove x y =>
    by_cases hcol : nearestColumn x < 0 ∨ totalColumns s.measures ≤ nearestColumn x
    · simp [step, hcol]
    · cases hv : nearestVoice y with
      | none => simp [step, hcol, hv]
      | some row =>
        cases hloc : locateMeasure s.measures (nearestColumn x) with
        | none => simp [step, hcol, hv, hloc]
        | some loc => simp [step, hcol, hv, hloc]
  | pointerLeave => rfl
  | click =>
    cases hsl : s.hoverSlot with
    | none =>
      simp only [step]
      rw [hsl]
    | some slot =>
      simp only [step]
      rw [hsl]
  | setDuration o => rfl
  | clear =>
    simp only [step]
    split <;> rfl
  | prevMeasure => rfl
  | nextMeasure => rfl
  | addMeasure => rfl
  | copy => exact absurd rfl h
  | paste =>
    cases hcl : s.clipboard with
    | none =>
      simp only [step]
      rw [hcl]
      exact hcl
    | some cb =>
      simp only [step]
      rw [hcl]

theorem foldl_clipboard_of_no_copy :
    ∀ (ops : List Op), Op.copy ∉ ops → ∀ s : State,
      (List.foldl step s ops).clipboard = s.clipboard := by
  intro ops
  induction ops with
  | nil => intro h s; rfl
  | cons o ops ih =>
    intro h s
    rw [List.foldl_cons]
    have ho : o ≠ Op.copy := fun he => h (he ▸ List.mem_cons_self o ops)
    rw [ih (fun hmem => h (List.mem_cons_of_mem o hmem)) (step s o),
      step_clipboard_of_ne_copy s ho]

/-- **C6.** Copying the current measure and immediately pasting leaves the
score's measure list and current index unchanged; and the clipboard
snapshot is detached: after any further copy-free mutations of the score,
pasting still writes exactly the measure content captured at copy time. -/
theorem copy_paste_roundtrip (s : State) (ops : List Op)
    (hi : s.currentMeasure < s.measures.length)
    (hops : Op.copy ∉ ops)
    (hj : (List.foldl step (step s Op.copy) ops).currentMeasure
        < (List.foldl step (step s Op.copy) ops).measures.length) :
    ((step (step s Op.copy) Op.paste).measures = s.measures
      ∧ (step (step s Op.copy) Op.paste).currentMeasure = s.currentMeasure)
    ∧ (step (List.foldl step (step s Op.copy) ops) Op.paste).measures.get?
        (List.foldl step (step s Op.copy) ops).currentMeasure
      = s.measures.get? s.currentMeasure := by
  obtain ⟨m, hm⟩ : ∃ m, s.measures.get? s.currentMeasure = some m := by
    cases hg : s.measures.get? s.currentMeasure with
    | none => exact absurd (List.get?_eq_none.mp hg) (by omega)
    | some m => exact ⟨m, rfl⟩
  have hcopy : step s Op.copy = { s with clipboard := some m } := by
    simp only [step]
    rw [hm]
  constructor
  · rw [hcopy]
    constructor
    · show (mapMeasures (fun i mm => if i = s.currentMeasure then m else mm)
          0 s.measures) = s.measures
      apply List.ext
      intro n
      rw [mapMeasures_get?]
      by_cases hn : n = s.currentMeasure
      · subst hn
        rw [hm]
        simp
      · cases hgn : s.measures.get? n with
        | none => rfl
        | some mn => simp [hn]
    · rfl
  · set s2 := List.foldl step (step s Op.copy) ops with hs2
    have hcb2 : s2.clipboard = some m := by
      rw [hs2, foldl_clipboard_of_no_copy ops hops (step s Op.copy), hcopy]
    cases hg2 : s2.measures.get? s2.currentMeasure with
    | none => exact absurd (List.get?_eq_none.mp hg2) (by omega)
    | some m2 =>
      have hpm : (step s2 Op.paste).measures
          = mapMeasures (fun i mm => if i = s2.currentMeasure then m else mm)
              0 s2.measures := by
        simp only [step]
        rw [hcb2]
      rw [hpm, mapMeasures_get?, hg2, hm]
      simp

/-- Witness for C6: copy at startup, add a measure, and paste into the new
measure; the pasted content is the empty default measure captured at copy
time. -/
theorem copy_paste_roundtrip_witness :
    (init.currentMeasure < init.measures.length
      ∧ Op.copy ∉ [Op.addMeasure]
      ∧ (List.foldl step (step init Op.copy) [Op.addMeasure]).currentMeasure
          < (List.foldl step (step init Op.copy) [Op.addMeasure]).measures.length)
    ∧ (((step (step init Op.copy) Op.paste).measures = init.measures
        ∧ (step (step init Op.copy) Op.paste).currentMeasure = init.currentMeasure)
      ∧ (step (List.foldl step (step init Op.copy) [Op.addMeasure]) Op.paste).measures.get?
          (List.foldl step (step init Op.copy) [Op.addMeasure]).currentMeasure
        = init.measures.get? init.currentMeasure) :=
  ⟨⟨by decide, by decide, by decide⟩,
    copy_paste_roundtrip init [Op.addMeasure] (by decide) (by decide) (by decide)⟩

end DrumSheet
